import Mathlib

/-!
Verification development for the ferret traversal-and-aggregation core
(pli-scraper repository).

The definitions below are a shallow embedding of the Rust code:

* `AnalysisResult`, `TagStats`, `AttributeStats` embed the structs of
  `src/ferret/src/analyzer/mod.rs` (HashMaps become association lists
  whose keys stay unique; iteration order of a HashMap is irrelevant to
  every property proved here).
* `recordValue` embeds the bounded-histogram admission logic of
  `StreamAnalyzer::process_element` (stream.rs lines 212-216) and
  `StatsAnalyzer::visit` (mod.rs lines 92-96), which are textually
  identical.
* `processElement` embeds `StreamAnalyzer::process_element`
  (stream.rs lines 176-219); `visit` embeds `StatsAnalyzer::visit`
  (mod.rs lines 52-101).
* `analyzeStep` / `streamAnalyze` embed the event loop of
  `StreamAnalyzer::analyze_reader` (stream.rs lines 130-171).
* `walkerNext` / `walkAll` embed `DomWalker` (walker.rs).
* `Session` embeds the chunked `FerretSession` of `wasm/mod.rs`.
-/

/-- Association-list lookup: first binding whose key equals `k`
(embeds `HashMap::get`). -/
def alookup {β : Type} (m : List (String × β)) (k : String) : Option β :=
  match m with
  | [] => none
  | (k', v) :: rest => if k' = k then some v else alookup rest k

/-- Replace the first binding for `k`, or append a new one (embeds an
in-place update of the entry returned by `HashMap::entry`). -/
def ainsert {β : Type} (m : List (String × β)) (k : String) (v : β) :
    List (String × β) :=
  match m with
  | [] => [(k, v)]
  | (k', v') :: rest =>
      if k' = k then (k, v) :: rest else (k', v') :: ainsert rest k v

/-- Does the map hold a binding for `k`? (embeds `HashMap::contains_key`). -/
def containsKey {β : Type} (m : List (String × β)) (k : String) : Bool :=
  m.any (fun p => p.1 = k)

/-- Embeds `*value_counts.entry(val).or_insert(0) += 1`: bump the count of
`v`, inserting it with count 1 when absent. -/
def bump (m : List (String × Nat)) (v : String) : List (String × Nat) :=
  match m with
  | [] => [(v, 1)]
  | (k, c) :: rest =>
      if k = v then (k, c + 1) :: rest else (k, c) :: bump rest v

/-- The bounded-histogram admission step of stream.rs lines 212-216 and
mod.rs lines 92-96: count `v` only when the histogram still has room or
already tracks `v`; otherwise drop the arrival entirely. -/
def recordValue (limit : Nat) (m : List (String × Nat)) (v : String) :
    List (String × Nat) :=
  if m.length < limit || containsKey m v then bump m v else m

/-- Per-attribute statistics (`AttributeStats`, mod.rs lines 26-31). -/
structure AttributeStats where
  name : String
  count : Nat
  value_counts : List (String × Nat)
deriving Repr, DecidableEq

/-- Per-tag statistics (`TagStats`, mod.rs lines 19-24). -/
structure TagStats where
  name : String
  count : Nat
  attributes : List (String × AttributeStats)
deriving Repr, DecidableEq

/-- The aggregate output (`AnalysisResult`, mod.rs lines 12-17). -/
structure AnalysisResult where
  tags : List (String × TagStats)
  files_analyzed : Nat
  max_depth : Nat
deriving Repr, DecidableEq

/-- The fresh `AttributeStats` built by `or_insert_with` closures
(mod.rs lines 82-86, stream.rs lines 202-206). -/
def emptyAttrStats (nm : String) : AttributeStats :=
  { name := nm, count := 0, value_counts := [] }

/-- The fresh `TagStats` built by `or_insert_with` closures
(mod.rs lines 64-68, stream.rs lines 186-190). -/
def emptyTagStats (nm : String) : TagStats :=
  { name := nm, count := 0, attributes := [] }

/-- One visit of one attribute occurrence carrying value `v`:
`attr_stats.count += 1` followed by the admission step
(stream.rs lines 207-216, mod.rs lines 88-96). -/
def attrRecord (limit : Nat) (a : AttributeStats) (v : String) :
    AttributeStats :=
  { a with count := a.count + 1,
           value_counts := recordValue limit a.value_counts v }

/-- Look-up-or-insert the `AttributeStats` of key `k` under one tag and
feed it one value occurrence. -/
def recordAttr (limit : Nat) (m : List (String × AttributeStats))
    (k v : String) : List (String × AttributeStats) :=
  ainsert m k (attrRecord limit ((alookup m k).getD (emptyAttrStats k)) v)

/-- `StreamAnalyzer::process_element` (stream.rs lines 176-219): bump the
tag's count, then record every `(key, value)` attribute pair. -/
def processElement (limit : Nat) (r : AnalysisResult) (nm : String)
    (attrs : List (String × String)) : AnalysisResult :=
  let ts := (alookup r.tags nm).getD (emptyTagStats nm)
  let ts := { ts with count := ts.count + 1 }
  let ts := attrs.foldl
    (fun t p => { t with attributes := recordAttr limit t.attributes p.1 p.2 })
    ts
  { r with tags := ainsert r.tags nm ts }

/-- A materialized document node (the `tl::Node` shape the core consumes:
a tag with a name, an ordered attribute list with optional values, and
ordered children, or a non-element node such as raw text / a comment,
which has no children). -/
inductive Node where
  | raw : String → Node
  | tag : String → List (String × Option String) → List Node → Node

/-- `node.children()`: `Some` children for a tag, nothing for raw nodes. -/
def childrenOf : Node → List Node
  | .raw _ => []
  | .tag _ _ cs => cs


/-- `StatsAnalyzer::visit` (mod.rs lines 52-101): raise `max_depth` for
every node, then, when the node is a tag, record it; an attribute whose
value is missing is recorded with the empty string
(`val_opt.map(...).unwrap_or_default()`). -/
def visit (limit : Nat) (r : AnalysisResult) (n : Node) (depth : Nat) :
    AnalysisResult :=
  let r := if depth > r.max_depth then { r with max_depth := depth } else r
  match n with
  | .raw _ => r
  | .tag nm attrs _ =>
      processElement limit r nm (attrs.map (fun p => (p.1, p.2.getD "")))

/-- The initial `AnalysisResult`: `StatsAnalyzer::new` (mod.rs lines 39-48)
builds it directly with `files_analyzed = 1`; `analyze_reader`
(stream.rs lines 136-137) builds the default and then sets
`files_analyzed = 1`. Both yield this value. -/
def initResult : AnalysisResult :=
  { tags := [], files_analyzed := 1, max_depth := 0 }

/-- One pull of `DomWalker::next` (walker.rs lines 24-39): pop the front
of the queue; collect the node's children and push them one by one, in
reverse order, onto the front at depth + 1. -/
def walkerNext (q : List (Node × Nat)) :
    Option ((Node × Nat) × List (Node × Nat)) :=
  match q with
  | [] => none
  | (n, d) :: rest =>
      some ((n, d),
        (childrenOf n).reverse.foldl (fun acc c => (c, d + 1) :: acc) rest)

/-- Drain the walker: the full visitation sequence produced by pulling
`DomWalker::next` until the queue is empty. -/
def walkAll (q : List (Node × Nat)) : List (Node × Nat) :=
  match q with
  | [] => []
  | (n, d) :: rest =>
      (n, d) :: walkAll ((childrenOf n).map (fun c => (c, d + 1)) ++ rest)
termination_by (q.map (fun p => sizeOf p.1)).sum
decreasing_by
  simp only [List.map_append, List.map_map, List.sum_append, List.map_cons,
    List.sum_cons, Function.comp_def]
  have h : ((childrenOf n).map (fun c => sizeOf c)).sum < sizeOf n := by
    cases n with
    | raw s => simp [childrenOf, Node.raw.sizeOf_spec]
    | tag nm a cs =>
        simp only [childrenOf, Node.tag.sizeOf_spec]
        have h2 : (cs.map (fun c => sizeOf c)).sum < sizeOf cs := by
          induction cs with
          | nil => simp
          | cons c l ih =>
              simp only [List.map_cons, List.sum_cons, List.cons.sizeOf_spec]
              omega
        omega
  omega

/-- Recursive preorder DFS at a given depth: the node itself, then the
preorders of its children left to right, one level deeper. -/
def preorder (d : Nat) : Node → List (Node × Nat)
  | .raw s => [(.raw s, d)]
  | .tag nm a cs =>
      (.tag nm a cs, d) ::
        (cs.attach.map (fun c => preorder (d + 1) c.1)).flatten
termination_by n => sizeOf n
decreasing_by
  have := List.sizeOf_lt_of_mem c.2
  simp only [Node.tag.sizeOf_spec]
  omega

/-- The materialized-tree analysis: seed the walker with the document's
top-level nodes at depth 0 (`DomWalker::new`, walker.rs lines 10-18),
feed every pulled `(node, depth)` to `StatsAnalyzer::visit`. -/
def treeAnalyze (limit : Nat) (roots : List Node) : AnalysisResult :=
  (walkAll (roots.map (fun n => (n, 0)))).foldl
    (fun r p => visit limit r p.1 p.2) initResult

/-- One decoded token of the forward scan: `Event::Start`, `Event::Empty`,
`Event::End` (whose name the loop ignores), and everything the loop
ignores (`Event::Text`, comments, parse errors, ...). -/
inductive XEvent where
  | start : String → List (String × String) → XEvent
  | empty : String → List (String × String) → XEvent
  | close : XEvent
  | other : XEvent
deriving Repr, DecidableEq

/-- One iteration of the `analyze_reader` event loop
(stream.rs lines 142-168) on the state `(nesting counter, result)`. -/
def analyzeStep (limit : Nat) (s : Nat × AnalysisResult) (e : XEvent) :
    Nat × AnalysisResult :=
  match e with
  | .start nm attrs =>
      let depth := s.1 + 1
      let r := if depth > s.2.max_depth
        then { s.2 with max_depth := depth } else s.2
      (depth, processElement limit r nm attrs)
  | .empty nm attrs => (s.1, processElement limit s.2 nm attrs)
  | .close => (if s.1 > 0 then s.1 - 1 else s.1, s.2)
  | .other => s

/-- `StreamAnalyzer::analyze_reader` (stream.rs lines 130-171) over a
decoded event sequence: fold the loop body from counter 0 and the
initial result. -/
def streamAnalyze (limit : Nat) (events : List XEvent) : AnalysisResult :=
  (events.foldl (analyzeStep limit) (0, initResult)).2

/-- The well-formed event serialization of a node: a tag opens, its
children follow, it closes; a raw node contributes a non-element token.
Missing attribute values serialize as the empty string. -/
def eventsOf : Node → List XEvent
  | .raw _ => [.other]
  | .tag nm a cs =>
      .start nm (a.map (fun p => (p.1, p.2.getD ""))) ::
        ((cs.attach.map (fun c => eventsOf c.1)).flatten ++ [.close])
termination_by n => sizeOf n
decreasing_by
  have := List.sizeOf_lt_of_mem c.2
  simp only [Node.tag.sizeOf_spec]
  omega

/-- Number of element nodes named `T` in a node's subtree. -/
def countTag (T : String) : Node → Nat
  | .raw _ => 0
  | .tag nm _ cs =>
      (if nm = T then 1 else 0) +
        (cs.attach.map (fun c => countTag T c.1)).sum
termination_by n => sizeOf n
decreasing_by
  have := List.sizeOf_lt_of_mem c.2
  simp only [Node.tag.sizeOf_spec]
  omega

/-- The tag count the result reports for `T` (0 when `T` is untracked). -/
def tagCount (r : AnalysisResult) (T : String) : Nat :=
  match alookup r.tags T with
  | some ts => ts.count
  | none => 0

/-- The chunked/resumable session of `wasm/mod.rs` (`FerretSession`):
the remaining walker queue, the accumulating analyzer result, and the
completion flag. -/
structure Session where
  queue : List (Node × Nat)
  result : AnalysisResult
  is_complete : Bool

/-- The value `StatsAnalyzer::new(5)` hard-codes in `FerretSession::new`
(wasm/mod.rs line 45). -/
def sessionLimit : Nat := 5

/-- `FerretSession::new` (wasm/mod.rs lines 28-54): seed the walker with
the document's top-level nodes, a fresh analyzer, not complete. -/
def sessionNew (roots : List Node) : Session :=
  { queue := roots.map (fun n => (n, 0)),
    result := initResult,
    is_complete := false }

/-- The `while processed < chunk_size` loop of `FerretSession::step`
(wasm/mod.rs lines 64-74): pull and visit until the chunk is exhausted
(returning `true`, more work may remain) or the walker is drained
(marking the session complete and returning `false`). -/
def stepLoop : Session → Nat → Session × Bool
  | s, 0 => (s, true)
  | s, k + 1 =>
      match walkerNext s.queue with
      | none => ({ s with is_complete := true }, false)
      | some ((n, d), q') =>
          stepLoop
            { s with queue := q',
                     result := visit sessionLimit s.result n d } k

/-- `FerretSession::step` (wasm/mod.rs lines 56-75): a completed session
refuses further work. -/
def sessionStep (s : Session) (chunk : Nat) : Session × Bool :=
  if s.is_complete then (s, false) else stepLoop s chunk

/-- `FerretSession::get_result` (wasm/mod.rs lines 77-82): report the
current result, with `files_analyzed` forced to 1 when the traversal has
completed and to 0 otherwise. -/
def getResult (s : Session) : AnalysisResult :=
  { s.result with files_analyzed := if s.is_complete then 1 else 0 }

/-- The distinct values of a sequence, in first-seen (encounter) order. -/
def distFirst (vs : List String) : List String :=
  vs.foldl (fun acc v => if v ∈ acc then acc else acc ++ [v]) []

/-- Number of occurrences of `v` in the sequence. -/
def countOcc (v : String) (vs : List String) : Nat :=
  (vs.filter (fun u => u = v)).length

/-- A whole value sequence fed through the admission step, from the empty
histogram. -/
def histFold (limit : Nat) (vs : List String) : List (String × Nat) :=
  vs.foldl (recordValue limit) []

/-- A whole value sequence fed through one `AttributeStats`
(count bump plus admission, stream.rs lines 207-216). -/
def attrFold (limit : Nat) (nm : String) (vs : List String) :
    AttributeStats :=
  vs.foldl (attrRecord limit) (emptyAttrStats nm)

/-- Total of all histogram counts. -/
def sumHist (m : List (String × Nat)) : Nat := (m.map Prod.snd).sum

/-- Number of arrivals the admission policy rejects when the sequence is
fed from histogram state `m`. -/
def rejectedFrom (limit : Nat) (m : List (String × Nat)) :
    List String → Nat
  | [] => 0
  | v :: rest =>
      (if m.length < limit || containsKey m v then 0 else 1) +
        rejectedFrom limit (recordValue limit m v) rest

/-- Number of arrivals the admission policy rejects over a sequence fed
from the empty histogram. -/
def rejectedCount (limit : Nat) (vs : List String) : Nat :=
  rejectedFrom limit [] vs

/-- Is this node an element named `T`? -/
def isNamed (T : String) : Node → Bool
  | .tag nm _ _ => nm = T
  | .raw _ => false

/-- Is this event an element event (open or self-closing) named `T`? -/
def isElemEvent (T : String) : XEvent → Bool
  | .start nm _ => nm = T
  | .empty nm _ => nm = T
  | _ => false

/-- Is this event one a flat, element-nesting-free document produces:
a self-closing element or ignored content (no open, no close)? -/
def isFlatEvent : XEvent → Bool
  | .empty _ _ => true
  | .other => true
  | _ => false

/-- The `AttributeStats` recorded for attribute `A` under tag `T`. -/
def attrStatsOf (r : AnalysisResult) (T A : String) :
    Option AttributeStats :=
  match alookup r.tags T with
  | some ts => alookup ts.attributes A
  | none => none

/-- The event sequence quick-xml decodes from the scenario input
`<div class="a"></div><div class="b"></div><div class="c"></div>
<div class="a"></div>`: one open event with its attribute pair and one
close event per element. -/
def c6events : List XEvent :=
  [.start "div" [("class", "a")], .close,
   .start "div" [("class", "b")], .close,
   .start "div" [("class", "c")], .close,
   .start "div" [("class", "a")], .close]

/-- Modelled from the spec: the structured interchange format of §6. The
serde derives on `AnalysisResult`/`TagStats`/`AttributeStats`
(mod.rs lines 12-31) generate field-by-field serialization with the
stable key names `tags`, `name`, `count`, `attributes`, `value_counts`,
`files_analyzed`, `max_depth`; the derive-generated code itself is not
part of the repository's sources, so its value tree is modelled here. -/
inductive Json where
  | num : Nat → Json
  | str : String → Json
  | obj : List (String × Json) → Json

/-- Modelled from the spec: serialization of a `value_counts` map. -/
def encodeVC (m : List (String × Nat)) : Json :=
  .obj (m.map (fun p => (p.1, .num p.2)))

/-- Modelled from the spec: serialization of one `AttributeStats`. -/
def encodeAttr (a : AttributeStats) : Json :=
  .obj [("name", .str a.name), ("count", .num a.count),
        ("value_counts", encodeVC a.value_counts)]

/-- Modelled from the spec: serialization of one `TagStats`. -/
def encodeTag (t : TagStats) : Json :=
  .obj [("name", .str t.name), ("count", .num t.count),
        ("attributes", .obj (t.attributes.map (fun p => (p.1, encodeAttr p.2))))]

/-- Modelled from the spec: serialization of an `AnalysisResult`. -/
def encodeResult (r : AnalysisResult) : Json :=
  .obj [("tags", .obj (r.tags.map (fun p => (p.1, encodeTag p.2)))),
        ("files_analyzed", .num r.files_analyzed),
        ("max_depth", .num r.max_depth)]

/-- Modelled from the spec: deserialization of a number field. -/
def decodeNum : Json → Option Nat
  | .num n => some n
  | _ => none

/-- Modelled from the spec: deserialization of a string field. -/
def decodeStr : Json → Option String
  | .str s => some s
  | _ => none

/-- Modelled from the spec: deserialization of `value_counts` entries. -/
def decodeNumPairs : List (String × Json) → Option (List (String × Nat))
  | [] => some []
  | (k, j) :: rest => do
      let n ← decodeNum j
      let r ← decodeNumPairs rest
      some ((k, n) :: r)

/-- Modelled from the spec: deserialization of a `value_counts` map. -/
def decodeVC : Json → Option (List (String × Nat))
  | .obj fs => decodeNumPairs fs
  | _ => none

/-- Modelled from the spec: deserialization of one `AttributeStats`. -/
def decodeAttr : Json → Option AttributeStats
  | .obj fs => do
      let nj ← alookup fs "name"
      let nm ← decodeStr nj
      let cj ← alookup fs "count"
      let c ← decodeNum cj
      let vj ← alookup fs "value_counts"
      let vc ← decodeVC vj
      some { name := nm, count := c, value_counts := vc }
  | _ => none

/-- Modelled from the spec: deserialization of `attributes` entries. -/
def decodeAttrPairs :
    List (String × Json) → Option (List (String × AttributeStats))
  | [] => some []
  | (k, j) :: rest => do
      let a ← decodeAttr j
      let r ← decodeAttrPairs rest
      some ((k, a) :: r)

/-- Modelled from the spec: deserialization of an `attributes` map. -/
def decodeAttrMap : Json → Option (List (String × AttributeStats))
  | .obj fs => decodeAttrPairs fs
  | _ => none

/-- Modelled from the spec: deserialization of one `TagStats`. -/
def decodeTag : Json → Option TagStats
  | .obj fs => do
      let nj ← alookup fs "name"
      let nm ← decodeStr nj
      let cj ← alookup fs "count"
      let c ← decodeNum cj
      let aj ← alookup fs "attributes"
      let attrs ← decodeAttrMap aj
      some { name := nm, count := c, attributes := attrs }
  | _ => none

/-- Modelled from the spec: deserialization of `tags` entries. -/
def decodeTagPairs :
    List (String × Json) → Option (List (String × TagStats))
  | [] => some []
  | (k, j) :: rest => do
      let t ← decodeTag j
      let r ← decodeTagPairs rest
      some ((k, t) :: r)

/-- Modelled from the spec: deserialization of an `AnalysisResult`. -/
def decodeResult : Json → Option AnalysisResult
  | .obj fs => do
      let tj ← alookup fs "tags"
      let tags ← match tj with
        | .obj tfs => decodeTagPairs tfs
        | _ => none
      let fj ← alookup fs "files_analyzed"
      let fa ← decodeNum fj
      let mj ← alookup fs "max_depth"
      let md ← decodeNum mj
      some { tags := tags, files_analyzed := fa, max_depth := md }
  | _ => none

/-! ### Association-list lemmas -/

theorem containsKey_iff {β : Type} (m : List (String × β)) (k : String) :
    containsKey m k = true ↔ k ∈ m.map Prod.fst := by
  simp [containsKey, List.any_eq_true, List.mem_map]

theorem alookup_map {β : Type} (l : List String) (g : String → β)
    (x : String) :
    alookup (l.map (fun u => (u, g u))) x =
      if x ∈ l then some (g x) else none := by
  induction l with
  | nil => simp [alookup]
  | cons u l ih =>
      simp only [List.map_cons, alookup, List.mem_cons]
      by_cases h : u = x
      · subst h; simp
      · simp [h, ih, Ne.symm h]

theorem map_fst_map {β : Type} (l : List String) (g : String → β) :
    ((l.map (fun u => (u, g u))).map Prod.fst) = l := by
  simp [List.map_map, Function.comp_def]

theorem bump_of_mem (l : List String) (g : String → Nat) (v : String)
    (hnd : l.Nodup) (hv : v ∈ l) :
    bump (l.map (fun u => (u, g u))) v =
      l.map (fun u => (u, g u + if u = v then 1 else 0)) := by
  induction l with
  | nil => cases hv
  | cons u l ih =>
      simp only [List.map_cons, bump]
      rcases List.mem_cons.mp hv with h | h
      · subst h
        simp only [if_pos rfl]
        have hnot : v ∉ l := (List.nodup_cons.mp hnd).1
        have : l.map (fun u => (u, g u + if u = v then 1 else 0)) =
            l.map (fun u => (u, g u)) := by
          apply List.map_congr_left
          intro a ha
          have : a ≠ v := fun he => hnot (he ▸ ha)
          simp [this]
        simp [this]
      · have hne : u ≠ v := by
          intro he; exact (List.nodup_cons.mp hnd).1 (he ▸ h)
        rw [if_neg hne, ih (List.nodup_cons.mp hnd).2 h]
        simp [hne]

theorem bump_of_not_mem (m : List (String × Nat)) (v : String)
    (hv : v ∉ m.map Prod.fst) : bump m v = m ++ [(v, 1)] := by
  induction m with
  | nil => simp [bump]
  | cons p rest ih =>
      simp only [List.map_cons, List.mem_cons] at hv
      push_neg at hv
      simp only [bump, if_neg (Ne.symm hv.1)]
      rw [ih hv.2]
      simp

/-! ### First-seen distinct values -/

theorem distFirst_append (vs : List String) (v : String) :
    distFirst (vs ++ [v]) =
      if v ∈ distFirst vs then distFirst vs else distFirst vs ++ [v] := by
  simp [distFirst, List.foldl_append]

theorem mem_distFirst (vs : List String) (x : String) :
    x ∈ distFirst vs ↔ x ∈ vs := by
  induction vs using List.reverseRecOn with
  | nil => simp [distFirst]
  | append_singleton vs v ih =>
      rw [distFirst_append]
      by_cases h : v ∈ distFirst vs
      · simp only [if_pos h, List.mem_append, List.mem_singleton, ih]
        constructor
        · exact Or.inl
        · rintro (hx | rfl)
          · exact hx
          · exact ih.mp h
      · simp [if_neg h, ih]

theorem nodup_distFirst (vs : List String) : (distFirst vs).Nodup := by
  induction vs using List.reverseRecOn with
  | nil => simp [distFirst]
  | append_singleton vs v ih =>
      rw [distFirst_append]
      by_cases h : v ∈ distFirst vs
      · simpa [h]
      · simp [h, List.nodup_append, ih]

theorem countOcc_append (v' : String) (vs : List String) (v : String) :
    countOcc v' (vs ++ [v]) =
      countOcc v' vs + if v = v' then 1 else 0 := by
  simp only [countOcc, List.filter_append]
  by_cases h : v = v'
  · simp [h]
  · simp [h, List.filter]

theorem countOcc_eq_zero (v : String) (vs : List String) (h : v ∉ vs) :
    countOcc v vs = 0 := by
  simp only [countOcc, List.length_eq_zero]
  rw [List.filter_eq_nil_iff]
  intro a ha
  simp only [decide_eq_true_eq]
  intro he
  exact h (he ▸ ha)

theorem histFold_append (limit : Nat) (vs : List String) (v : String) :
    histFold limit (vs ++ [v]) =
      recordValue limit (histFold limit vs) v := by
  simp [histFold, List.foldl_append]

/-- The bounded histogram after any value sequence: the tracked keys are
the first `limit` distinct values in encounter order, each with its exact
total occurrence count. -/
theorem histFold_eq (limit : Nat) (vs : List String) :
    histFold limit vs =
      ((distFirst vs).take limit).map (fun u => (u, countOcc u vs)) := by
  induction vs using List.reverseRecOn with
  | nil => simp [histFold, distFirst]
  | append_singleton vs v ih =>
      rw [histFold_append, ih, distFirst_append]
      by_cases hmem : v ∈ (distFirst vs).take limit
      · have hvD : v ∈ distFirst vs := List.take_subset _ _ hmem
        rw [if_pos hvD]
        have hnd : ((distFirst vs).take limit).Nodup :=
          (List.take_sublist _ _).nodup (nodup_distFirst vs)
        have hck : containsKey
            (((distFirst vs).take limit).map (fun u => (u, countOcc u vs))) v
            = true := by
          rw [containsKey_iff, map_fst_map]; exact hmem
        rw [recordValue, hck]
        simp only [Bool.or_true, if_true]
        rw [bump_of_mem _ _ _ hnd hmem]
        apply List.map_congr_left
        intro u _
        rw [countOcc_append]
        rcases eq_or_ne u v with h | h
        · subst h; simp
        · simp [h, Ne.symm h]
      · by_cases hvD : v ∈ distFirst vs
        · rw [if_pos hvD]
          have hlen : limit < (distFirst vs).length := by
            by_contra hle
            push_neg at hle
            rw [List.take_of_length_le hle] at hmem
            exact hmem hvD
          have hck : containsKey
              (((distFirst vs).take limit).map (fun u => (u, countOcc u vs)))
              v = false := by
            rw [Bool.eq_false_iff]
            intro h
            rw [containsKey_iff, map_fst_map] at h
            exact hmem h
          have hlen2 :
              ((((distFirst vs).take limit).map
                (fun u => (u, countOcc u vs))).length < limit) = False := by
            simp only [List.length_map, List.length_take, eq_iff_iff,
              iff_false]
            omega
          rw [recordValue, hck]
          simp only [hlen2, Bool.or_false, decide_False, Bool.false_eq_true,
            if_false]
          apply List.map_congr_left
          intro u hu
          rw [countOcc_append]
          have : v ≠ u := fun he => hmem (he ▸ hu)
          simp [this]
        · rw [if_neg hvD]
          have hvvs : v ∉ vs := fun h => hvD ((mem_distFirst vs v).mpr h)
          by_cases hlt : (distFirst vs).length < limit
          · have htake : (distFirst vs).take limit = distFirst vs :=
              List.take_of_length_le (le_of_lt hlt)
          
            have hlen2 :
                (((distFirst vs).take limit).map
                  (fun u => (u, countOcc u vs))).length < limit := by
              simp only [List.length_map, htake]
              exact hlt
            have hcond : (decide ((((distFirst vs).take limit).map
                (fun u => (u, countOcc u vs))).length < limit) ||
                containsKey (((distFirst vs).take limit).map
                  (fun u => (u, countOcc u vs))) v) = true := by
              simp only [Bool.or_eq_true, decide_eq_true_eq]
              exact Or.inl hlen2
            rw [recordValue, if_pos hcond]
            have hnot : v ∉ (((distFirst vs).take limit).map
                (fun u => (u, countOcc u vs))).map Prod.fst := by
              rw [map_fst_map]; exact hmem
            rw [bump_of_not_mem _ _ hnot]
            have htake2 : ((distFirst vs) ++ [v]).take limit =
                (distFirst vs) ++ [v] := by
              apply List.take_of_length_le
              simp only [List.length_append, List.length_singleton]
              omega
            rw [htake2, List.map_append, htake]
            congr 1
            · apply List.map_congr_left
              intro u hu
              rw [countOcc_append]
              have : v ≠ u := fun he => hvD (he ▸ hu)
              simp [this]
            · simp only [List.map_singleton]
              rw [countOcc_append, countOcc_eq_zero v vs hvvs]
              simp
          · push_neg at hlt
            have hck : containsKey
                (((distFirst vs).take limit).map (fun u => (u, countOcc u vs)))
                v = false := by
              rw [Bool.eq_false_iff]
              intro h
              rw [containsKey_iff, map_fst_map] at h
              exact hmem h
            have hlen2 :
                ((((distFirst vs).take limit).map
                  (fun u => (u, countOcc u vs))).length < limit) = False := by
              simp only [List.length_map, List.length_take, eq_iff_iff,
                iff_false]
              omega
            rw [recordValue, hck]
            simp only [hlen2, Bool.or_false, decide_False, Bool.false_eq_true,
              if_false]
            have htake2 : ((distFirst vs) ++ [v]).take limit =
                (distFirst vs).take limit := by
              rw [List.take_append_eq_append_take]
              have : limit - (distFirst vs).length = 0 := by omega
              rw [this]
              simp
            rw [htake2]
            apply List.map_congr_left
            intro u hu
            rw [countOcc_append]
            have : v ≠ u := fun he =>
              hvD (he ▸ (List.take_subset _ _ hu))
            simp [this]

theorem sumHist_bump (m : List (String × Nat)) (v : String) :
    sumHist (bump m v) = sumHist m + 1 := by
  induction m with
  | nil => simp [bump, sumHist]
  | cons p rest ih =>
      obtain ⟨k, c⟩ := p
      by_cases h : k = v
      · simp [bump, h, sumHist]
        omega
      · simp only [bump, if_neg h]
        simp only [sumHist, List.map_cons, List.sum_cons] at *
        omega

/-- Conservation along the admission policy: every arrival is either
counted into the histogram total or rejected, never both. -/
theorem sumHist_fold (limit : Nat) (vs : List String) :
    ∀ m : List (String × Nat),
      sumHist (vs.foldl (recordValue limit) m) + rejectedFrom limit m vs =
        sumHist m + vs.length := by
  induction vs with
  | nil => intro m; simp [rejectedFrom]
  | cons v rest ih =>
      intro m
      simp only [List.foldl_cons, rejectedFrom, List.length_cons]
      by_cases h : (decide (m.length < limit) || containsKey m v) = true
      · have hr : recordValue limit m v = bump m v := by
          rw [recordValue, if_pos h]
        rw [if_pos h, hr]
        have h2 := ih (bump m v)
        have h3 := sumHist_bump m v
        omega
      · have hr : recordValue limit m v = m := by
          rw [recordValue, if_neg h]
        rw [if_neg h, hr]
        have := ih m
        omega

/-- The whole state of one `AttributeStats` after a value sequence:
`count` is the number of arrivals, `value_counts` the bounded histogram. -/
theorem attrFold_spec (limit : Nat) (nm : String) (vs : List String) :
    attrFold limit nm vs =
      { name := nm, count := vs.length,
        value_counts := histFold limit vs } := by
  induction vs using List.reverseRecOn with
  | nil => rfl
  | append_singleton vs v ih =>
      simp only [attrFold, List.foldl_append, List.foldl_cons, List.foldl_nil]
      simp only [attrFold] at ih
      rw [ih]
      simp [attrRecord, histFold_append, histFold]

/-- Mirror of C1 keys statement packaged for reuse. -/
theorem histFold_keys (limit : Nat) (vs : List String) :
    (histFold limit vs).map Prod.fst = (distFirst vs).take limit := by
  rw [histFold_eq, map_fst_map]

/-- C1 — Bounded value histogram admission, first-seen wins: after any
value sequence, the tracked key set is exactly the first `limit` distinct
values in encounter order; a value outside that set is absent from the
histogram (dropped arrivals are not counted at all); a tracked value's
count is its exact total number of arrivals, i.e. each arrival of a
tracked value incremented it by exactly one. -/
theorem c1_bounded_histogram_admission (limit : Nat) (nm : String)
    (vs : List String) :
    (attrFold limit nm vs).value_counts.map Prod.fst =
      (distFirst vs).take limit ∧
    ∀ v : String,
      alookup (attrFold limit nm vs).value_counts v =
        if v ∈ (distFirst vs).take limit
        then some (countOcc v vs) else none := by
  rw [attrFold_spec]
  refine ⟨histFold_keys limit vs, fun v => ?_⟩
  rw [histFold_eq, alookup_map]

/-- C5 — Per-attribute conservation invariant: after any traversal
history, `count` of an `AttributeStats` equals the histogram total plus
the number of admission-rejected arrivals; hence `count` is at least the
histogram total, with equality exactly when no arrival was rejected. -/
theorem c5_count_ge_hist_sum (limit : Nat) (nm : String)
    (vs : List String) :
    (attrFold limit nm vs).count =
      sumHist (attrFold limit nm vs).value_counts +
        rejectedCount limit vs ∧
    sumHist (attrFold limit nm vs).value_counts ≤
      (attrFold limit nm vs).count ∧
    ((attrFold limit nm vs).count =
        sumHist (attrFold limit nm vs).value_counts ↔
      rejectedCount limit vs = 0) := by
  have h := sumHist_fold limit vs []
  rw [attrFold_spec]
  simp only [histFold] at *
  simp only [rejectedCount]
  simp only [sumHist, List.map_nil, List.sum_nil] at h ⊢
  omega

/-- C8 — Zero admission limit: the histogram never tracks anything, while
the owning `AttributeStats.count` still counts every occurrence exactly
as with any other limit. -/
theorem c8_zero_limit (limit : Nat) (nm : String) (vs : List String) :
    (attrFold 0 nm vs).value_counts = [] ∧
    (attrFold limit nm vs).count = vs.length := by
  constructor
  · rw [attrFold_spec, histFold_eq]
    simp
  · rw [attrFold_spec]

/-! ### Tag-count bookkeeping -/

theorem alookup_ainsert_self {β : Type} (m : List (String × β))
    (k : String) (v : β) : alookup (ainsert m k v) k = some v := by
  induction m with
  | nil => simp [ainsert, alookup]
  | cons p rest ih =>
      obtain ⟨k', v'⟩ := p
      by_cases h : k' = k
      · simp [ainsert, alookup, h]
      · simp [ainsert, alookup, h, ih]

theorem alookup_ainsert_ne {β : Type} (m : List (String × β))
    (k : String) (v : β) (k' : String) (h : k' ≠ k) :
    alookup (ainsert m k v) k' = alookup m k' := by
  induction m with
  | nil => simp [ainsert, alookup, Ne.symm h]
  | cons p rest ih =>
      obtain ⟨k0, v0⟩ := p
      by_cases h0 : k0 = k
      · subst h0
        simp [ainsert, alookup, Ne.symm h]
      · simp only [ainsert, if_neg h0, alookup]
        by_cases h1 : k0 = k'
        · simp [h1]
        · simp [h1, ih]

theorem attrLoop_count (limit : Nat) (attrs : List (String × String)) :
    ∀ ts : TagStats,
      (attrs.foldl
        (fun t p =>
          { t with attributes := recordAttr limit t.attributes p.1 p.2 })
        ts).count = ts.count := by
  induction attrs with
  | nil => intro ts; rfl
  | cons a rest ih => intro ts; rw [List.foldl_cons, ih]

theorem tagCount_processElement (limit : Nat) (r : AnalysisResult)
    (nm : String) (attrs : List (String × String)) (T : String) :
    tagCount (processElement limit r nm attrs) T =
      tagCount r T + (if nm = T then 1 else 0) := by
  by_cases h : nm = T
  · subst h
    simp only [tagCount, processElement, alookup_ainsert_self, if_pos rfl]
    rw [attrLoop_count]
    cases halt : alookup r.tags nm <;> simp [halt, emptyTagStats]
  · simp only [tagCount, processElement,
      alookup_ainsert_ne _ _ _ _ (Ne.symm h), if_neg h]
    omega

theorem tagCount_max_depth (r : AnalysisResult) (x : Nat) (T : String) :
    tagCount { r with max_depth := x } T = tagCount r T := rfl

theorem tagCount_visit (limit : Nat) (r : AnalysisResult) (n : Node)
    (d : Nat) (T : String) :
    tagCount (visit limit r n d) T =
      tagCount r T + (if isNamed T n then 1 else 0) := by
  cases n with
  | raw s =>
      simp only [visit, isNamed]
      split <;> simp [tagCount_max_depth, tagCount]
  | tag nm a cs =>
      simp only [visit, isNamed]
      rw [tagCount_processElement]
      congr 1
      · split <;> simp [tagCount_max_depth, tagCount]
      · simp

theorem tagCount_foldl_visit (limit : Nat) (T : String)
    (l : List (Node × Nat)) :
    ∀ r : AnalysisResult,
      tagCount (l.foldl (fun r p => visit limit r p.1 p.2) r) T =
        tagCount r T + l.countP (fun p => isNamed T p.1) := by
  induction l with
  | nil => intro r; simp
  | cons p rest ih =>
      intro r
      rw [List.foldl_cons, ih, tagCount_visit, List.countP_cons]
      omega

/-- Induction over nodes giving the hypothesis for every child. -/
theorem nodeInduct {motive : Node → Prop}
    (hraw : ∀ s, motive (.raw s))
    (htag : ∀ nm a cs, (∀ c ∈ cs, motive c) → motive (.tag nm a cs)) :
    ∀ n, motive n := fun n =>
  match n with
  | .raw s => hraw s
  | .tag nm a cs => htag nm a cs (fun c _hc => nodeInduct hraw htag c)
termination_by n => sizeOf n
decreasing_by
  have := List.sizeOf_lt_of_mem _hc
  simp only [Node.tag.sizeOf_spec]
  omega

theorem preorder_eq (d : Nat) (n : Node) :
    preorder d n =
      (n, d) :: ((childrenOf n).map (preorder (d + 1))).flatten := by
  cases n with
  | raw s => simp [preorder, childrenOf]
  | tag nm a cs =>
      rw [preorder]
      simp [childrenOf, List.attach_map_coe]

theorem eventsOf_eq (n : Node) :
    eventsOf n =
      match n with
      | .raw _ => [.other]
      | .tag nm a cs =>
          .start nm (a.map (fun p => (p.1, p.2.getD ""))) ::
            ((cs.map eventsOf).flatten ++ [.close]) := by
  cases n with
  | raw s => rw [eventsOf]
  | tag nm a cs =>
      rw [eventsOf]
      simp [List.attach_map_coe]

theorem countTag_eq (T : String) (n : Node) :
    countTag T n =
      match n with
      | .raw _ => 0
      | .tag nm _ cs =>
          (if nm = T then 1 else 0) + (cs.map (countTag T)).sum := by
  cases n with
  | raw s => rw [countTag]
  | tag nm a cs =>
      rw [countTag]
      simp [List.attach_map_coe]

theorem countP_preorder (T : String) (n : Node) :
    ∀ d, (preorder d n).countP (fun p => isNamed T p.1) = countTag T n := by
  induction n using nodeInduct with
  | hraw s => intro d; simp [preorder_eq, countTag_eq, isNamed, childrenOf]
  | htag nm a cs ih =>
      intro d
      rw [preorder_eq, countTag_eq]
      simp only [childrenOf, List.countP_cons, List.countP_flatten,
        List.map_map]
      have h2 : cs.map
            ((List.countP fun p => isNamed T p.1) ∘ preorder (d + 1)) =
          cs.map (countTag T) := by
        apply List.map_congr_left
        intro c hc
        exact ih c hc (d + 1)
      rw [h2]
      simp only [isNamed, decide_eq_true_eq]
      omega

theorem revfold_push (cs : List Node) (d : Nat) :
    ∀ rest : List (Node × Nat),
      cs.reverse.foldl (fun acc c => (c, d + 1) :: acc) rest =
        cs.map (fun c => (c, d + 1)) ++ rest := by
  induction cs using List.reverseRecOn with
  | nil => intro rest; rfl
  | append_singleton xs x ih =>
      intro rest
      rw [List.reverse_append]
      simp only [List.reverse_singleton, List.singleton_append,
        List.foldl_cons, List.map_append, List.map_singleton]
      rw [ih ((x, d + 1) :: rest)]
      simp

/-- Draining the walker from any queue yields, for each queued pair, its
recursive preorder at its queued depth, in queue order. -/
theorem walkAll_eq (q : List (Node × Nat)) :
    walkAll q = q.flatMap (fun p => preorder p.2 p.1) := by
  induction q using walkAll.induct with
  | case1 => simp [walkAll]
  | case2 n d rest ih =>
      rw [walkAll, ih]
      simp only [List.flatMap_append, List.flatMap_map, List.flatMap_cons]
      rw [preorder_eq]
      simp [List.flatMap_def]

/-- C4 — Materialized tree traversal is preorder DFS: the queue is seeded
with the top-level nodes at depth 0; a pull on the empty queue signals
exhaustion; a pull pops the front pair and leaves the popped node's
children at the front, in document order, one level deeper (the
reverse-order front pushes amount to exactly this); draining the walker
from the seed yields the left-to-right recursive preorder of the
document's forest. -/
theorem c4_walker_is_preorder_dfs (roots : List Node) (n : Node) (d : Nat)
    (rest : List (Node × Nat)) :
    walkerNext ([] : List (Node × Nat)) = none ∧
    walkerNext ((n, d) :: rest) =
      some ((n, d), (childrenOf n).map (fun c => (c, d + 1)) ++ rest) ∧
    walkAll (roots.map (fun x => (x, 0))) =
      roots.flatMap (preorder 0) := by
  refine ⟨rfl, ?_, ?_⟩
  · simp only [walkerNext]
    rw [revfold_push]
  · rw [walkAll_eq, List.flatMap_map]

theorem tagCount_analyzeStep (limit : Nat) (s : Nat × AnalysisResult)
    (e : XEvent) (T : String) :
    tagCount (analyzeStep limit s e).2 T =
      tagCount s.2 T + (if isElemEvent T e then 1 else 0) := by
  cases e with
  | start nm attrs =>
      simp only [analyzeStep, isElemEvent]
      rw [tagCount_processElement]
      congr 1
      · split <;> simp [tagCount_max_depth]
      · simp
  | empty nm attrs =>
      simp only [analyzeStep, isElemEvent]
      rw [tagCount_processElement]
      simp
  | close => simp [analyzeStep, isElemEvent]
  | other => simp [analyzeStep, isElemEvent]

theorem tagCount_foldl_events (limit : Nat) (T : String)
    (evs : List XEvent) :
    ∀ s : Nat × AnalysisResult,
      tagCount (evs.foldl (analyzeStep limit) s).2 T =
        tagCount s.2 T + evs.countP (isElemEvent T) := by
  induction evs with
  | nil => intro s; simp
  | cons e rest ih =>
      intro s
      rw [List.foldl_cons, ih, tagCount_analyzeStep, List.countP_cons]
      omega

theorem countP_eventsOf (T : String) (n : Node) :
    (eventsOf n).countP (isElemEvent T) = countTag T n := by
  induction n using nodeInduct with
  | hraw s => simp [eventsOf_eq, countTag_eq, isElemEvent]
  | htag nm a cs ih =>
      rw [eventsOf_eq, countTag_eq]
      simp only [List.countP_cons, List.countP_append,
        List.countP_flatten, List.map_map]
      have h2 : cs.map (List.countP (isElemEvent T) ∘ eventsOf) =
          cs.map (countTag T) := by
        apply List.map_congr_left
        intro c hc
        exact ih c hc
      rw [h2]
      simp [isElemEvent]
      omega

/-- C2 — Traversal-strategy equivalence of tag counts: for every
well-formed document (a forest of nodes) and every tag name `T`, the
count reported for `T` by the materialized tree walk feeding
`StatsAnalyzer::visit` and by the streaming scan of the document's event
serialization are both exactly the number of element nodes named `T`. -/
theorem c2_tag_count_strategy_equivalence (limit : Nat)
    (roots : List Node) (T : String) :
    tagCount (treeAnalyze limit roots) T =
      (roots.map (countTag T)).sum ∧
    tagCount (streamAnalyze limit (roots.flatMap eventsOf)) T =
      (roots.map (countTag T)).sum := by
  constructor
  · rw [treeAnalyze, tagCount_foldl_visit, walkAll_eq]
    have h0 : tagCount initResult T = 0 := rfl
    rw [h0, List.flatMap_map]
    simp only [List.flatMap_def, List.countP_flatten, List.map_map,
      Nat.zero_add]
    congr 1
    apply List.map_congr_left
    intro c _
    exact countP_preorder T c 0
  · rw [streamAnalyze, tagCount_foldl_events]
    have h0 : tagCount initResult T = 0 := rfl
    rw [h0]
    simp only [List.flatMap_def, List.countP_flatten, List.map_map,
      Nat.zero_add]
    congr 1
    apply List.map_congr_left
    intro c _
    exact countP_eventsOf T c

/-- C3 — Streaming nesting counter: an element-open event increments the
counter, updates `max_depth` to the maximum of its old value and the new
counter, then records the element; an empty/self-closing event records
the element at the current counter without touching it; an element-close
event decrements a positive counter, and a stray close at counter zero
leaves the whole state unchanged (no error). -/
theorem c3_nesting_counter (limit d : Nat) (r : AnalysisResult)
    (nm : String) (attrs : List (String × String)) :
    analyzeStep limit (d, r) (.start nm attrs) =
      (d + 1, processElement limit
        { r with max_depth := max r.max_depth (d + 1) } nm attrs) ∧
    analyzeStep limit (d, r) (.empty nm attrs) =
      (d, processElement limit r nm attrs) ∧
    analyzeStep limit (d, r) .close = (d - 1, r) ∧
    analyzeStep limit (0, r) .close = (0, r) := by
  obtain ⟨tg, fa, md⟩ := r
  refine ⟨?_, rfl, ?_, rfl⟩
  · simp only [analyzeStep]
    congr 2
    by_cases h : d + 1 > md
    · rw [if_pos h]
      simp only [AnalysisResult.mk.injEq, and_true, true_and]
      omega
    · rw [if_neg h]
      simp only [AnalysisResult.mk.injEq, and_true, true_and]
      omega
  · simp only [analyzeStep]
    by_cases h : d > 0
    · rw [if_pos h]
    · rw [if_neg h]
      congr 1
      omega

/-! ### files_analyzed bookkeeping -/

theorem processElement_files (limit : Nat) (r : AnalysisResult)
    (nm : String) (attrs : List (String × String)) :
    (processElement limit r nm attrs).files_analyzed =
      r.files_analyzed := rfl

theorem visit_files (limit : Nat) (r : AnalysisResult) (n : Node)
    (d : Nat) : (visit limit r n d).files_analyzed = r.files_analyzed := by
  cases n with
  | raw s => simp only [visit]; split <;> rfl
  | tag nm a cs =>
      simp only [visit]
      rw [processElement_files]
      split <;> rfl

theorem foldl_visit_files (limit : Nat) (l : List (Node × Nat)) :
    ∀ r : AnalysisResult,
      (l.foldl (fun r p => visit limit r p.1 p.2) r).files_analyzed =
        r.files_analyzed := by
  induction l with
  | nil => intro r; rfl
  | cons p rest ih => intro r; rw [List.foldl_cons, ih, visit_files]

theorem analyzeStep_files (limit : Nat) (s : Nat × AnalysisResult)
    (e : XEvent) :
    (analyzeStep limit s e).2.files_analyzed = s.2.files_analyzed := by
  cases e with
  | start nm attrs =>
      simp only [analyzeStep]
      rw [processElement_files]
      split <;> rfl
  | empty nm attrs => exact processElement_files ..
  | close => rfl
  | other => rfl

theorem foldl_events_files (limit : Nat) (evs : List XEvent) :
    ∀ s : Nat × AnalysisResult,
      (evs.foldl (analyzeStep limit) s).2.files_analyzed =
        s.2.files_analyzed := by
  induction evs with
  | nil => intro s; rfl
  | cons e rest ih => intro s; rw [List.foldl_cons, ih, analyzeStep_files]

/-- C7 counterexample — a session result reported before the traversal
completes: a fresh session on a one-element document has not observed
walker exhaustion, and `get_result` reports `files_analyzed = 0`,
refuting the claim that every result the core hands out (including
session results before completion) has `files_analyzed = 1`. -/
theorem c7_counterexample_incomplete_session :
    ¬ ((getResult (sessionNew [Node.tag "div" [] []])).files_analyzed
        = 1) := by
  decide

/-- C7 amended — `files_analyzed` and `max_depth` of reported results:
every completed analysis (tree or stream) reports `files_analyzed = 1`
and a `max_depth ≥ 0`; the chunked session's `get_result` reports
`files_analyzed = 1` exactly when the session has observed walker
exhaustion, and `files_analyzed = 0` before that. -/
theorem c7_files_analyzed_reporting (limit : Nat) (roots : List Node)
    (evs : List XEvent) (s : Session) :
    (treeAnalyze limit roots).files_analyzed = 1 ∧
    (streamAnalyze limit evs).files_analyzed = 1 ∧
    0 ≤ (treeAnalyze limit roots).max_depth ∧
    (getResult s).files_analyzed = (if s.is_complete then 1 else 0) := by
  refine ⟨?_, ?_, Nat.zero_le _, rfl⟩
  · rw [treeAnalyze, foldl_visit_files]
    rfl
  · rw [streamAnalyze, foldl_events_files]
    rfl

theorem processElement_max_depth (limit : Nat) (r : AnalysisResult)
    (nm : String) (attrs : List (String × String)) :
    (processElement limit r nm attrs).max_depth = r.max_depth := rfl

theorem flat_events_state (limit : Nat) (evs : List XEvent)
    (h : ∀ e ∈ evs, isFlatEvent e = true) :
    ∀ s : Nat × AnalysisResult, s.1 = 0 →
      (evs.foldl (analyzeStep limit) s).1 = 0 ∧
      (evs.foldl (analyzeStep limit) s).2.max_depth = s.2.max_depth := by
  induction evs with
  | nil => intro s hs; exact ⟨hs, rfl⟩
  | cons e rest ih =>
      intro s hs
      have he := h e (List.mem_cons_self e rest)
      have hrest : ∀ e ∈ rest, isFlatEvent e = true :=
        fun e' he' => h e' (List.mem_cons_of_mem e he')
      cases e with
      | start nm attrs => simp [isFlatEvent] at he
      | close => simp [isFlatEvent] at he
      | empty nm attrs =>
          rw [List.foldl_cons]
          have hstep := ih hrest (analyzeStep limit s (.empty nm attrs))
            (by simp [analyzeStep, hs])
          refine ⟨hstep.1, ?_⟩
          rw [hstep.2]
          simp [analyzeStep, processElement_max_depth]
      | other =>
          rw [List.foldl_cons]
          exact ih hrest s hs

/-- C10 — Flat documents stay at depth zero: when every event of the
input is a self-closing element or ignored content (e.g. a document of
top-level `<img/>` tags), the nesting counter is never incremented and
never decremented below zero, `max_depth` of the returned result is 0
(each self-closing element is recorded at depth 0, not 1), while every
such element is still recorded: the reported tag count of `T` is the
number of self-closing elements named `T`. -/
theorem c10_flat_document_depth_zero (limit : Nat) (evs : List XEvent)
    (T : String) (h : ∀ e ∈ evs, isFlatEvent e = true) :
    (evs.foldl (analyzeStep limit) (0, initResult)).1 = 0 ∧
    (streamAnalyze limit evs).max_depth = 0 ∧
    tagCount (streamAnalyze limit evs) T = evs.countP (isElemEvent T) := by
  have hstate := flat_events_state limit evs h (0, initResult) rfl
  refine ⟨hstate.1, hstate.2, ?_⟩
  rw [streamAnalyze, tagCount_foldl_events]
  have h0 : tagCount (0, initResult).2 T = 0 := rfl
  rw [h0]
  omega

/-- Witness for C10 at a concrete flat document: two `<img/>` elements
and one ignored text token. -/
theorem c10_flat_document_depth_zero_witness :
    (∀ e ∈ ([XEvent.empty "img" [("src", "x")], XEvent.empty "img" [],
        XEvent.other] : List XEvent), isFlatEvent e = true) ∧
    (([XEvent.empty "img" [("src", "x")], XEvent.empty "img" [],
        XEvent.other].foldl (analyzeStep 5) (0, initResult)).1 = 0 ∧
      (streamAnalyze 5 [XEvent.empty "img" [("src", "x")],
        XEvent.empty "img" [], XEvent.other]).max_depth = 0 ∧
      tagCount (streamAnalyze 5 [XEvent.empty "img" [("src", "x")],
        XEvent.empty "img" [], XEvent.other]) "img" =
        [XEvent.empty "img" [("src", "x")], XEvent.empty "img" [],
          XEvent.other].countP (isElemEvent "img")) :=
  ⟨by decide,
   c10_flat_document_depth_zero 5
     [XEvent.empty "img" [("src", "x")], XEvent.empty "img" [],
       XEvent.other] "img" (by decide)⟩

/-- C6 — End-to-end scenario with admission limit 2: four `div`
elements, `class` seen four times, the histogram holds exactly
`a ↦ 2` and `b ↦ 1` (the first two distinct values), and `c` is
absent. -/
theorem c6_scenario_limit_two :
    tagCount (streamAnalyze 2 c6events) "div" = 4 ∧
    attrStatsOf (streamAnalyze 2 c6events) "div" "class" =
      some { name := "class", count := 4,
             value_counts := [("a", 2), ("b", 1)] } ∧
    (attrStatsOf (streamAnalyze 2 c6events) "div" "class").map
      (fun a => alookup a.value_counts "c") = some none := by
  decide

theorem decodeNumPairs_encode (m : List (String × Nat)) :
    decodeNumPairs (m.map (fun p => (p.1, Json.num p.2))) = some m := by
  induction m with
  | nil => rfl
  | cons p rest ih =>
      simp only [List.map_cons, decodeNumPairs, decodeNum, ih,
        Option.bind_eq_bind, Option.some_bind]

theorem decodeAttr_encode (a : AttributeStats) :
    decodeAttr (encodeAttr a) = some a := by
  simp [decodeAttr, encodeAttr, alookup, decodeStr, decodeNum, decodeVC,
    decodeNumPairs_encode, encodeVC]

theorem decodeAttrPairs_encode (m : List (String × AttributeStats)) :
    decodeAttrPairs (m.map (fun p => (p.1, encodeAttr p.2))) = some m := by
  induction m with
  | nil => rfl
  | cons p rest ih =>
      simp only [List.map_cons, decodeAttrPairs, decodeAttr_encode, ih,
        Option.bind_eq_bind, Option.some_bind]

theorem decodeTag_encode (t : TagStats) :
    decodeTag (encodeTag t) = some t := by
  simp [decodeTag, encodeTag, alookup, decodeStr, decodeNum, decodeAttrMap,
    decodeAttrPairs_encode]

theorem decodeTagPairs_encode (m : List (String × TagStats)) :
    decodeTagPairs (m.map (fun p => (p.1, encodeTag p.2))) = some m := by
  induction m with
  | nil => rfl
  | cons p rest ih =>
      simp only [List.map_cons, decodeTagPairs, decodeTag_encode, ih,
        Option.bind_eq_bind, Option.some_bind]

/-- C9 — Round trip through the interchange format: deserializing the
serialization of any `AnalysisResult` reproduces it exactly, so the tags
key set, every count at every level, every histogram entry and
`max_depth` are all preserved. -/
theorem c9_serialization_round_trip (r : AnalysisResult) :
    decodeResult (encodeResult r) = some r := by
  simp [decodeResult, encodeResult, alookup, decodeNum,
    decodeTagPairs_encode]
